import Mathlib

/-!
Verification development for `dabl/plot/utils.py`.

The Python module is shallowly embedded: Python integers become `Int`
(with the Python floor division `Int.fdiv` and floor modulo `Int.fmod`),
numeric values become `ℚ`, missing values (`NaN`) become `Option.none`,
pandas series become lists, tables become association lists of named
columns, and code that can raise returns `Option`/`Except`.
-/

namespace DablPlotUtils

/-! ### `find_pretty_grid`

Embedding of `find_pretty_grid(n_plots, max_cols)` from
`dabl/plot/utils.py`.  The Python `%` on ints is `Int.fmod` (sign of the
divisor) and raises `ZeroDivisionError` on a zero divisor, which we model
as `none`.  `int(np.ceil(a / b))` on ints is exact ceiling division,
`-((-a).fdiv b)`.  `int(a / b)` is only evaluated under an `a % b == 0`
guard, where it equals `a.fdiv b`.
-/

/-- Ceiling division on `Int`, the value of Python's `int(np.ceil(a / b))`
for a nonzero divisor. -/
def pyCeilDiv (a b : Int) : Int := -(Int.fdiv (-a) b)

/-- The list produced by Python's `range(start, stop, -1)`:
`start, start - 1, ..., stop + 1`. -/
def pyRangeDown (start stop : Int) : List Int :=
  (List.range (start - stop).toNat).map (fun (i : ℕ) => start - (i : Int))

/-- The `for cols in range(max_cols, min_rows - 1, -1)` loop of
`find_pretty_grid`, carrying the running `best_empty` and `best_cols`.
A `cols` value of `0` makes `n_plots % cols` raise `ZeroDivisionError`
(modelled as `none`). -/
def gridScan (n_plots : Int) : List Int → Int → Int → Option (Int × Int)
  | [], _, best_cols => some (pyCeilDiv n_plots best_cols, best_cols)
  | cols :: rest, best_empty, best_cols =>
    if cols = 0 then none
    else
      let remainder := Int.fmod n_plots cols
      let empty := if remainder ≠ 0 then cols - remainder else 0
      if empty = 0 then some (Int.fdiv n_plots cols, cols)
      else if empty < best_empty then gridScan n_plots rest empty cols
      else gridScan n_plots rest best_empty best_cols

/-- Embedding of `find_pretty_grid`.  `none` models an uncaught Python
exception (`ZeroDivisionError` from `n_plots % max_cols` when
`max_cols == 0`).  The local `min_rows = int(np.ceil(n_plots / max_cols))`
of the source is inlined as `pyCeilDiv n_plots max_cols`. -/
def find_pretty_grid (n_plots max_cols : Int) : Option (Int × Int) :=
  if max_cols = 0 then none
  else if Int.fmod n_plots max_cols = 0 then
    some (Int.fdiv n_plots max_cols, max_cols)
  else
    gridScan n_plots
      (pyRangeDown max_cols (pyCeilDiv n_plots max_cols - 1)) max_cols max_cols

/-- Number of empty grid cells of the `(pyCeilDiv N c, c)` grid:
`rows * cols - n_plots`. -/
def emptyCells (n c : Int) : Int := pyCeilDiv n c * c - n

/-! ### Sorting helper

Stable insertion sort, used to model the sorted order that numpy quantile
computation and the pandas `value_counts` rely on.  `le a b = true` puts
`a` before (or with) `b`.
-/

/-- Insert `a` in front of the first element `b` with `le a b`. -/
def insertBy {α : Type} (le : α → α → Bool) (a : α) : List α → List α
  | [] => [a]
  | b :: l => if le a b then a :: b :: l else b :: insertBy le a l

/-- Insertion sort by `le`. -/
def sortBy {α : Type} (le : α → α → Bool) : List α → List α
  | [] => []
  | a :: l => insertBy le a (sortBy le l)

/-! ### Quantiles and `_inlier_range` / `_find_inliers` / `_clean_outliers`

`np.nanquantile(xs, q)` / `pandas.Series.quantile(q)` drop the missing
values, sort, and linearly interpolate: with `n` present values and
position `h = q * (n - 1)`, the result is
`x_i + (h - i) * (x_(i+1) - x_i)` for `i = floor h` (the upper index
clamped to `n - 1`).  An empty series yields `NaN`, modelled `none`.
-/

/-- Linear-interpolation quantile of an already sorted list. -/
def quantileSorted (xs : List ℚ) (q : ℚ) : Option ℚ :=
  match xs with
  | [] => none
  | _ :: _ =>
    some ((xs.getD (⌊q * ((xs.length : ℚ) - 1)⌋).toNat 0) +
      (q * ((xs.length : ℚ) - 1) - ((⌊q * ((xs.length : ℚ) - 1)⌋ : Int) : ℚ)) *
      ((xs.getD (min ((⌊q * ((xs.length : ℚ) - 1)⌋).toNat + 1) (xs.length - 1)) 0) -
       (xs.getD (⌊q * ((xs.length : ℚ) - 1)⌋).toNat 0)))

/-- `np.nanquantile` / `Series.quantile` on a series with missing values. -/
def nanquantile (xs : List (Option ℚ)) (q : ℚ) : Option ℚ :=
  quantileSorted (sortBy (fun a b => decide (a ≤ b)) (xs.filterMap id)) q

/-- Embedding of `_inlier_range`: take the 1st and 99th percentile of the
series, `assert low < high` (an `AssertionError` is modelled `none`, as is
the all-missing series whose percentiles are `NaN`), and widen the
interval by half its width on each side. -/
def _inlier_range (series : List (Option ℚ)) : Option (ℚ × ℚ) :=
  match nanquantile series (1/100), nanquantile series (99/100) with
  | some low, some high =>
    if low < high then
      some (low - (high - low) / 2, high + (high - low) / 2)
    else none
  | _, _ => none

/-- Embedding of `_find_inliers`: `series.between(low, high) | series.isna()`.
`between` is inclusive on both ends and false on a missing value, so a
missing entry is an inlier through the `isna` disjunct.  `none` propagates
the `AssertionError` of `_inlier_range`. -/
def _find_inliers (series : List (Option ℚ)) : Option (List Bool) :=
  match _inlier_range series with
  | some (low, high) =>
    some (series.map (fun e =>
      match e with
      | some v => decide (low ≤ v ∧ v ≤ high)
      | none => true))
  | none => none

/-- Embedding of the local `_find_outliers_series` of `_clean_outliers`:
drop the missing values, take the 1st and 99th percentile of the rest, and
test every present value against the widened band (`between` is false when
a bound is `NaN`, which only happens when the series has no present value).
A missing entry has no row in the pandas result and comes back as `NaN`
(modelled `none`) after frame alignment. -/
def _find_outliers_series (col : List (Option ℚ)) : List (Option Bool) :=
  match nanquantile col (1/100), nanquantile col (99/100) with
  | some low, some high =>
    col.map (fun e => e.map (fun v =>
      decide (low - (high - low) / 2 ≤ v ∧ v ≤ high + (high - low) / 2)))
  | _, _ => col.map (fun e => e.map (fun _ => false))

/-- Truthiness of a mask entry under `np.logical_and`: `NaN` is truthy. -/
def truthy : Option Bool → Bool
  | none => true
  | some b => b

/-- `reduce(np.logical_and, xs)` over one row of the mask frame: a single
entry is returned as is (possibly `NaN`), two or more entries fold to a
plain boolean, treating `NaN` as truthy.  The empty row (a table with no
columns) is modelled `none`. -/
def pyReduceAnd : List (Option Bool) → Option Bool
  | [] => none
  | [x] => x
  | x :: y :: rest =>
    some (rest.foldl (fun acc v => acc && truthy v) (truthy x && truthy y))

/-- Row `i` of the mask frame `data.apply(_find_outliers_series)`: one
entry per column of `data` (columns are the outer list). -/
def cleanOutliersRow (data : List (List (Option ℚ))) (i : ℕ) : List (Option Bool) :=
  (data.map _find_outliers_series).map (fun colMask => (colMask[i]?).getD none)

/-- Whether `_clean_outliers` keeps row `i` of `data`: the row-wise
`reduce(np.logical_and, row)` followed by `.fillna(True)`. -/
def cleanOutliersKeep (data : List (List (Option ℚ))) (i : ℕ) : Bool :=
  (pyReduceAnd (cleanOutliersRow data i)).getD true

/-- Specification-side predicate: the entry is missing or lies in the
closed band `[low, high]`. -/
def inlierSpec (low high : ℚ) : Option ℚ → Prop
  | none => True
  | some v => low ≤ v ∧ v ≤ high

/-- Specification-side predicate for one column of `_clean_outliers`: the
entry of `col` at row `i` is missing (or the row is out of range), or it
lies in the widened 1st-to-99th-percentile band of the column. -/
def colInlierSpec (col : List (Option ℚ)) (i : ℕ) : Prop :=
  match (col[i]?).getD none with
  | none => True
  | some v => ∃ low high, nanquantile col (1/100) = some low ∧
      nanquantile col (99/100) = some high ∧
      low - (high - low) / 2 ≤ v ∧ v ≤ high + (high - low) / 2

/-! ### `_prune_categories` and `_prune_category_make_X`

A categorical series is a `List (Option String)`; `astype('category')`
makes the categories exactly the distinct present values and does not
change the stored values.  `value_counts()` lists every category with its
count, sorted by count descending; pandas leaves the relative order of
equal counts unspecified, the embedding fixes one admissible order
(insertion sort).  `remove_categories(small)` turns every occurrence of a
category of `small` into a missing value; `add_categories(['dabl_other'])`
raises a `ValueError` (modelled `none`) when `dabl_other` is still a live
category; `fillna` then maps every missing entry to `dabl_other`.
-/

/-- Entries of `series.value_counts()` for the present values of a series:
every distinct value with its count, by count descending. -/
def value_counts (xs : List String) : List (String × ℕ) :=
  sortBy (fun p q => decide (q.2 ≤ p.2)) (xs.dedup.map (fun v => (v, xs.count v)))

/-- Embedding of `_prune_categories`. -/
def _prune_categories (series : List (Option String)) (max_categories : ℕ) :
    Option (List String) :=
  if "dabl_other" ∈ ((value_counts (series.filterMap id)).map Prod.fst).filter
      (fun v => decide (v ∉ ((value_counts (series.filterMap id)).drop
        max_categories).map Prod.fst)) then
    none
  else
    some (series.map (fun e =>
      match e with
      | some v =>
        if v ∈ ((value_counts (series.filterMap id)).drop max_categories).map Prod.fst
        then "dabl_other" else v
      | none => "dabl_other"))

/-- Column lookup `X[c]` on a table given as an association list of named
columns (pandas labels are unique; lookup takes the first match). -/
def getCol (X : List (String × List (Option String))) (c : String) :
    List (Option String) :=
  match X.find? (fun p => decide (p.1 = c)) with
  | some p => p.2
  | none => []

/-- pandas column assignment `X[c] = vals`: overwrite the column if the
label exists, else append it as the last column. -/
def setCol (X : List (String × List (Option String))) (c : String)
    (vals : List (Option String)) : List (String × List (Option String)) :=
  if c ∈ X.map Prod.fst then
    X.map (fun p => if p.1 = c then (p.1, vals) else p)
  else X ++ [(c, vals)]

/-- `Series.nunique()`: number of distinct present values. -/
def nunique (col : List (Option String)) : ℕ := (col.filterMap id).dedup.length

/-- Embedding of `_prune_category_make_X`.  In the pruning branch the new
table is `X[[target_col]].copy()` with the pruned column assigned to it;
in the other branch it is a copy of all of `X` with `col` coerced to
categorical (values unchanged).  `none` propagates the `ValueError` that
`_prune_categories` can raise. -/
def _prune_category_make_X (X : List (String × List (Option String)))
    (col target_col : String) (max_categories : ℕ) :
    Option (List (String × List (Option String))) :=
  if max_categories < nunique (getCol X col) then
    match _prune_categories (getCol X col) (min 10 max_categories) with
    | some pruned =>
      some (setCol [(target_col, getCol X target_col)] col (pruned.map some))
    | none => none
  else some (setCol X col (getCol X col))

/-! ### `_fill_missing_categorical` -/

/-- A pandas column as seen by `_fill_missing_categorical`: an object
(string) column, filled through the `dtype == 'object'` branch, or a
numeric column, filled through the `else` branch. -/
inductive PCol where
  | obj (vals : List (Option String))
  | num (vals : List (Option ℚ))

/-- `column.max()`: maximum present value of a numeric column, `NaN`
(`none`) when there is none; object columns do not take part in
`X.max(numeric_only=True)`. -/
def colMax : PCol → Option ℚ
  | .obj _ => none
  | .num vs => (vs.filterMap id).max?

/-- `X.max(numeric_only=True).max()`: table-wide maximum present numeric
value, `NaN` (`none`) when no numeric value is present at all. -/
def tableMax (X : List (String × PCol)) : Option ℚ :=
  ((X.map (fun p => colMax p.2)).filterMap id).max?

/-- Fill the missing entries of one column: `"dabl_missing"` for an object
column, `max + 1` for a numeric column.  Filling with `NaN` (no table-wide
maximum) leaves a missing entry missing. -/
def fillCol (mx : Option ℚ) : PCol → PCol
  | .obj vs => .obj (vs.map (fun e => some (e.getD "dabl_missing")))
  | .num vs => .num (vs.map (fun e =>
      match e, mx with
      | none, some m => some (m + 1)
      | e, _ => e))

/-- Embedding of `_fill_missing_categorical` (the Python code fills a
copy of `X` in place; the embedding returns the filled copy). -/
def _fill_missing_categorical (X : List (String × PCol)) : List (String × PCol) :=
  X.map (fun p => (p.1, fillCol (tableMax X) p.2))

/-- Does the column still contain a missing entry? -/
def colHasMissing : PCol → Bool
  | .obj vs => vs.any (fun e => e.isNone)
  | .num vs => vs.any (fun e => e.isNone)

/-- Does any column of the table contain a missing entry? -/
def tableHasMissing (X : List (String × PCol)) : Bool :=
  X.any (fun p => colHasMissing p.2)

/-! ### `class_hists` bin edges -/

/-- A `bins` argument of `np.histogram_bin_edges`: an explicit bin count
or an explicit array of edges.  The string estimators such as `'auto'`
(which also produce some array of edges fed to the same minimum-edge
guard) are not modelled. -/
inductive Bins where
  | num (n : ℕ)
  | edges (es : List ℚ)

/-- `np.linspace a b m`: `m` evenly spaced points from `a` to `b`. -/
def linspace (a b : ℚ) (m : ℕ) : List ℚ :=
  (List.range m).map (fun (i : ℕ) => a + (b - a) * (i : ℚ) / ((m : ℚ) - 1))

/-- `np.histogram_bin_edges(data, bins)`: for a count `n`, `n + 1` evenly
spaced edges over `[min, max]` of the data (numpy widens a degenerate
range `min = max` to `[v - 0.5, v + 0.5]` and uses `[0, 1]` for empty
data); an explicit edge array is returned unchanged. -/
def histogram_bin_edges (data : List ℚ) : Bins → List ℚ
  | .num n =>
    if (data.min?).getD 0 = (data.max?).getD 1 then
      linspace ((data.min?).getD 0 - 1/2) ((data.max?).getD 1 + 1/2) (n + 1)
    else linspace ((data.min?).getD 0) ((data.max?).getD 1) (n + 1)
  | .edges es => es

/-- The bin edges `class_hists` actually draws with: drop the missing
values of the column, compute the requested edges, and recompute with 10
bins whenever fewer than 10 edges came back. -/
def class_hists_bin_edges (data : List (Option ℚ)) (bins : Bins) : List ℚ :=
  if (histogram_bin_edges (data.filterMap id) bins).length < 10 then
    histogram_bin_edges (data.filterMap id) (.num 10)
  else histogram_bin_edges (data.filterMap id) bins

/-! ### `plot_coefficients` validation -/

/-- Shape of `arr.squeeze()`: drop every axis of size 1. -/
def squeezeShape (shape : List ℕ) : List ℕ := shape.filter (fun d => decide (d ≠ 1))

/-- Total number of elements of an array of the given shape; `ravel`
flattens without dropping elements, so this is `len(coefficients)` after
`squeeze` and `ravel`. -/
def shapeSize (shape : List ℕ) : ℕ := shape.prod

/-- Embedding of the validation prologue of `plot_coefficients`, acting on
the shape of the coefficient array and the number of feature names: raise
unless the squeezed array is at most one-dimensional, then raise unless
its length matches the number of feature names. -/
def plot_coefficients_checks (coefShape : List ℕ) (nFeatures : ℕ) :
    Except String Unit :=
  if 1 < (squeezeShape coefShape).length then
    Except.error "coefficients must be 1d array or column vector"
  else if shapeSize coefShape ≠ nFeatures then
    Except.error "Number of coefficients does not match number of feature names"
  else Except.ok ()

/-! ### `_check_X_target_col` -/

/-- The `task` argument: `None` or one of the two recognised strings. -/
inductive Task where
  | classification
  | regression
  | none
deriving DecidableEq

/-- Embedding of `_check_X_target_col` for a string-valued `target_col`
(the `isinstance` guard of the source is identically false for a string)
and an externally supplied type table `types` mapping a column to its
`(categorical, continuous)` flags (`detect_types` is an external
collaborator). -/
def _check_X_target_col (X : List (String × List (Option String)))
    (target_col : String) (types : String → Bool × Bool) (task : Task) :
    Except String Unit :=
  if target_col ∉ X.map Prod.fst then
    Except.error "is not a valid column of X"
  else if nunique (getCol X target_col) < 2 then
    Except.error "Less than two classes present, need at least two for classification"
  else if task = Task.classification ∧ (types target_col).1 = false then
    Except.error "need categorical for classification"
  else if task = Task.regression ∧ (types target_col).2 = false then
    Except.error "need continuous for regression"
  else Except.ok ()

theorem pyCeilDiv_spec (n : Int) {c : Int} (hc : 0 < c) :
    pyCeilDiv n c = if n % c = 0 then n / c else n / c + 1 := by
  have hc0 : (0:Int) ≤ c := le_of_lt hc
  have hcne : c ≠ 0 := ne_of_gt hc
  have hdm := Int.ediv_add_emod n c
  have hr0 : 0 ≤ n % c := Int.emod_nonneg n hcne
  have hrc : n % c < c := Int.emod_lt_of_pos n hc
  unfold pyCeilDiv
  rw [Int.fdiv_eq_ediv _ hc0]
  by_cases h : n % c = 0
  · rw [if_pos h]
    have hn : -n = c * (-(n / c)) := by rw [h] at hdm; linarith
    rw [hn, Int.mul_ediv_cancel_left _ hcne]
    ring
  · rw [if_neg h]
    have hn : -n = (c - n % c) + c * (-(n / c) - 1) := by linarith
    rw [hn, Int.add_mul_ediv_left _ _ hcne,
      Int.ediv_eq_zero_of_lt (by omega) (by omega)]
    ring

theorem emptyCells_eq (n : Int) {c : Int} (hc : 0 < c) :
    emptyCells n c = if n % c = 0 then 0 else c - n % c := by
  have hdm := Int.ediv_add_emod n c
  unfold emptyCells
  rw [pyCeilDiv_spec n hc]
  by_cases h : n % c = 0
  · rw [if_pos h, if_pos h]; nlinarith [hdm]
  · rw [if_neg h, if_neg h]; nlinarith [hdm]

theorem emptyCells_nonneg (n : Int) {c : Int} (hc : 0 < c) :
    0 ≤ emptyCells n c := by
  have hr0 : 0 ≤ n % c := Int.emod_nonneg n (ne_of_gt hc)
  have hrc : n % c < c := Int.emod_lt_of_pos n hc
  rw [emptyCells_eq n hc]
  by_cases h : n % c = 0
  · simp [h]
  · simp only [h, if_false]; omega

theorem emptyCells_lt (n : Int) {c : Int} (hc : 0 < c) :
    emptyCells n c < c := by
  have hr0 : 0 ≤ n % c := Int.emod_nonneg n (ne_of_gt hc)
  rw [emptyCells_eq n hc]
  by_cases h : n % c = 0
  · simp [h]; omega
  · simp only [h, if_false]; omega

theorem le_pyCeilDiv_mul (n : Int) {c : Int} (hc : 0 < c) :
    n ≤ pyCeilDiv n c * c := by
  have := emptyCells_nonneg n hc
  unfold emptyCells at this
  linarith

theorem pyCeilDiv_eq_fdiv_of_emod_eq_zero (n : Int) {c : Int} (hc : 0 < c)
    (h : n % c = 0) : pyCeilDiv n c = Int.fdiv n c := by
  rw [pyCeilDiv_spec n hc, if_pos h, Int.fdiv_eq_ediv _ (le_of_lt hc)]

theorem mem_pyRangeDown {c start stop : Int} :
    c ∈ pyRangeDown start stop ↔ stop < c ∧ c ≤ start := by
  unfold pyRangeDown
  simp only [List.mem_map, List.mem_range]
  constructor
  · rintro ⟨i, hi, rfl⟩
    omega
  · rintro ⟨h1, h2⟩
    exact ⟨(start - c).toNat, by omega, by omega⟩

theorem pairwise_pyRangeDown (start stop : Int) :
    (pyRangeDown start stop).Pairwise (· > ·) := by
  unfold pyRangeDown
  rw [List.pairwise_map]
  exact (List.pairwise_lt_range _).imp (by intro a b h; omega)

theorem pyRangeDown_cons {start stop : Int} (h : stop < start) :
    pyRangeDown start stop = start :: pyRangeDown (start - 1) stop := by
  unfold pyRangeDown
  have hk : (start - stop).toNat = (start - 1 - stop).toNat + 1 := by omega
  rw [hk, List.range_succ_eq_map, List.map_cons, List.map_map]
  simp only [Nat.cast_zero, sub_zero]
  congr 1
  apply List.map_congr_left
  intro a _
  simp only [Function.comp_apply, Nat.succ_eq_add_one]
  push_cast
  ring

theorem gridScan_spec (n : Int) :
    ∀ (l : List Int) (bc be : Int), 0 < bc → be = emptyCells n bc → 0 < be →
    (∀ c ∈ l, 0 < c ∧ c < bc) → l.Pairwise (· > ·) →
    ∃ c, gridScan n l be bc = some (pyCeilDiv n c, c) ∧ 0 < c ∧ c ≤ bc ∧
      (c = bc ∨ c ∈ l) ∧
      emptyCells n c ≤ emptyCells n bc ∧
      (∀ c' ∈ l, emptyCells n c ≤ emptyCells n c') ∧
      (emptyCells n c = emptyCells n bc → c = bc) ∧
      (∀ c' ∈ l, emptyCells n c = emptyCells n c' → c' ≤ c) := by
  intro l
  induction l with
  | nil =>
    intro bc be hbc hbe hbe0 _ _
    refine ⟨bc, rfl, hbc, le_refl bc, Or.inl rfl, le_refl _, ?_, fun _ => rfl, ?_⟩
    · intro c' hc'; exact absurd hc' (List.not_mem_nil c')
    · intro c' hc'; exact absurd hc' (List.not_mem_nil c')
  | cons cols rest ih =>
    intro bc be hbc hbe hbe0 hmem hpw
    obtain ⟨hcols, hcolsbc⟩ := hmem cols (List.mem_cons_self cols rest)
    have hcne : cols ≠ 0 := ne_of_gt hcols
    have hrest : ∀ c ∈ rest, 0 < c ∧ c < bc := fun c hc =>
      hmem c (List.mem_cons_of_mem cols hc)
    have hpwrest : rest.Pairwise (· > ·) := hpw.of_cons
    have hheadgt : ∀ c ∈ rest, c < cols := fun c hc =>
      (List.pairwise_cons.mp hpw).1 c hc
    have hrem : Int.fmod n cols = n % cols := Int.fmod_eq_emod n (le_of_lt hcols)
    have hempty :
        (if Int.fmod n cols ≠ 0 then cols - Int.fmod n cols else 0)
          = emptyCells n cols := by
      rw [hrem, emptyCells_eq n hcols]
      by_cases h : n % cols = 0
      · simp [h]
      · simp [h]
    have hscan :
        gridScan n (cols :: rest) be bc =
          (if emptyCells n cols = 0 then some (Int.fdiv n cols, cols)
           else if emptyCells n cols < be then
             gridScan n rest (emptyCells n cols) cols
           else gridScan n rest be bc) := by
      show (if cols = 0 then none else _) = _
      rw [if_neg hcne]
      simp only [hempty]
    by_cases h0 : emptyCells n cols = 0
    · -- perfect fit at `cols`: early return
      rw [hscan, if_pos h0]
      have hdvd : n % cols = 0 := by
        have := emptyCells_eq n hcols
        rw [h0] at this
        by_cases h : n % cols = 0
        · exact h
        · exfalso
          rw [if_neg h] at this
          have hr0 : 0 ≤ n % cols := Int.emod_nonneg n hcne
          have hrc : n % cols < cols := Int.emod_lt_of_pos n hcols
          omega
      refine ⟨cols, ?_, hcols, le_of_lt hcolsbc, Or.inr (List.mem_cons_self _ _),
        ?_, ?_, ?_, ?_⟩
      · rw [pyCeilDiv_eq_fdiv_of_emod_eq_zero n hcols hdvd]
      · rw [h0]; exact le_of_lt (by omega)
      · intro c' hc'
        rw [h0]
        exact emptyCells_nonneg n (hmem c' hc').1
      · intro htie; rw [h0] at htie; omega
      · intro c' hc' htie
        rcases List.mem_cons.mp hc' with h | h
        · omega
        · exact le_of_lt (hheadgt c' h)
    · by_cases hlt : emptyCells n cols < be
      · -- new best at `cols`, continue the scan
        rw [hscan, if_neg h0, if_pos hlt]
        have h0' : 0 < emptyCells n cols := by
          have := emptyCells_nonneg n hcols
          omega
        obtain ⟨c, hres, hc0, hcle, hcmem, hcbest, hcall, hctie, hcties⟩ :=
          ih cols (emptyCells n cols) hcols rfl h0'
            (fun c hc => ⟨(hrest c hc).1, hheadgt c hc⟩) hpwrest
        refine ⟨c, hres, hc0, le_trans hcle (le_of_lt hcolsbc),
          Or.inr (List.mem_cons.mpr hcmem), ?_, ?_, ?_, ?_⟩
        · rw [hbe] at hlt; omega
        · intro c' hc'
          rcases List.mem_cons.mp hc' with h | h
          · rw [h]; exact hcbest
          · exact hcall c' h
        · intro htie
          rw [hbe] at hlt
          omega
        · intro c' hc' htie
          rcases List.mem_cons.mp hc' with h | h
          · have : c = cols := hctie (by rw [← h]; exact htie)
            omega
          · exact hcties c' h htie
      · -- `cols` does not improve the best, continue with the old state
        rw [hscan, if_neg h0, if_neg hlt]
        obtain ⟨c, hres, hc0, hcle, hcmem, hcbest, hcall, hctie, hcties⟩ :=
          ih bc be hbc hbe hbe0 hrest hpwrest
        refine ⟨c, hres, hc0, hcle,
          hcmem.imp id (fun h => List.mem_cons_of_mem _ h), hcbest, ?_, hctie, ?_⟩
        · intro c' hc'
          rcases List.mem_cons.mp hc' with h | h
          · rw [h, hbe] at *; omega
          · exact hcall c' h
        · intro c' hc' htie
          rcases List.mem_cons.mp hc' with h | h
          · have hceq : emptyCells n c = emptyCells n bc := by
              rw [hbe] at *
              rw [h] at htie
              omega
            have := hctie hceq
            omega
          · exact hcties c' h htie

theorem gridScan_cons (n cols : Int) (rest : List Int) (be bc : Int)
    (hcols : 0 < cols) :
    gridScan n (cols :: rest) be bc =
      (if emptyCells n cols = 0 then some (Int.fdiv n cols, cols)
       else if emptyCells n cols < be then gridScan n rest (emptyCells n cols) cols
       else gridScan n rest be bc) := by
  have hrem : Int.fmod n cols = n % cols := Int.fmod_eq_emod n (le_of_lt hcols)
  have hempty :
      (if Int.fmod n cols ≠ 0 then cols - Int.fmod n cols else 0)
        = emptyCells n cols := by
    rw [hrem, emptyCells_eq n hcols]
    by_cases h : n % cols = 0
    · simp [h]
    · simp [h]
  show (if cols = 0 then none else _) = _
  rw [if_neg (ne_of_gt hcols)]
  simp only [hempty]

theorem pyRangeDown_nil {start stop : Int} (h : start ≤ stop) :
    pyRangeDown start stop = [] := by
  unfold pyRangeDown
  have : (start - stop).toNat = 0 := by omega
  rw [this]
  rfl

theorem emptyCells_one (n : Int) : emptyCells n 1 = 0 := by
  rw [emptyCells_eq n (by omega : (0:Int) < 1)]
  simp [Int.emod_one]

theorem gridScan_isSome_of_ne_zero (n : Int) :
    ∀ (l : List Int), (∀ c ∈ l, c ≠ 0) → ∀ be bc, (gridScan n l be bc).isSome := by
  intro l
  induction l with
  | nil => intro _ be bc; rfl
  | cons cols rest ih =>
    intro h be bc
    have hne : cols ≠ 0 := h cols (List.mem_cons_self _ _)
    have hrest : ∀ c ∈ rest, c ≠ 0 := fun c hc => h c (List.mem_cons_of_mem _ hc)
    simp only [gridScan, if_neg hne]
    repeat' split
    all_goals first | rfl | exact ih hrest _ _

theorem gridScan_isSome_pyRangeDown (n : Int) :
    ∀ (k : ℕ) (start stop : Int), (start - stop).toNat = k → 0 < start →
    ∀ be bc, (gridScan n (pyRangeDown start stop) be bc).isSome := by
  intro k
  induction k with
  | zero =>
    intro start stop hk _ be bc
    rw [pyRangeDown_nil (by omega)]
    rfl
  | succ k ih =>
    intro start stop hk hstart be bc
    rw [pyRangeDown_cons (by omega), gridScan_cons n start _ _ _ hstart]
    by_cases h0 : emptyCells n start = 0
    · rw [if_pos h0]; rfl
    · have hstart1 : start ≠ 1 := by
        intro h1
        exact h0 (h1 ▸ emptyCells_one n)
      have hstart2 : 0 < start - 1 := by omega
      rw [if_neg h0]
      split
      · exact ih (start - 1) stop (by omega) hstart2 _ _
      · exact ih (start - 1) stop (by omega) hstart2 _ _

theorem find_pretty_grid_isSome (n m : Int) (hm : m ≠ 0) :
    (find_pretty_grid n m).isSome := by
  unfold find_pretty_grid
  rw [if_neg hm]
  by_cases hdvd : Int.fmod n m = 0
  · rw [if_pos hdvd]; rfl
  · rw [if_neg hdvd]
    rcases lt_or_gt_of_ne hm with hneg | hpos
    · apply gridScan_isSome_of_ne_zero
      intro c hc
      have := mem_pyRangeDown.mp hc
      omega
    · exact gridScan_isSome_pyRangeDown n _ m _ rfl hpos _ _

theorem find_pretty_grid_correct (n m : Int) (hn : 0 < n) (hm : 0 < m) :
    ∃ r c, find_pretty_grid n m = some (r, c) ∧
      n ≤ r * c ∧ c ≤ m ∧
      (∀ c', pyCeilDiv n m ≤ c' → c' ≤ m →
        r * c - n ≤ pyCeilDiv n c' * c' - n) ∧
      (∀ c', pyCeilDiv n m ≤ c' → c' ≤ m →
        r * c - n = pyCeilDiv n c' * c' - n → c' ≤ c) ∧
      (n % m = 0 → r = n / m ∧ c = m) := by
  have hmne : m ≠ 0 := ne_of_gt hm
  have hrem : Int.fmod n m = n % m := Int.fmod_eq_emod n (le_of_lt hm)
  have hmr1 : 1 ≤ pyCeilDiv n m := by
    rw [pyCeilDiv_spec n hm]
    have hq0 : 0 ≤ n / m := Int.ediv_nonneg (le_of_lt hn) (le_of_lt hm)
    have hdm := Int.ediv_add_emod n m
    by_cases h : n % m = 0
    · rw [if_pos h]
      nlinarith [hdm]
    · rw [if_neg h]
      omega
  unfold find_pretty_grid
  rw [if_neg hmne, hrem]
  by_cases hdvd : n % m = 0
  · -- perfect fit: n evenly divisible by m
    rw [if_pos hdvd]
    have hfd : Int.fdiv n m = n / m := Int.fdiv_eq_ediv n (le_of_lt hm)
    have hdm := Int.ediv_add_emod n m
    have hzero : (n / m) * m - n = 0 := by rw [hdvd] at hdm; linarith
    refine ⟨Int.fdiv n m, m, rfl, ?_, le_refl m, ?_, ?_, fun _ => ⟨hfd, rfl⟩⟩
    · rw [hfd]; linarith
    · intro c' h1 h2
      rw [hfd, hzero]
      have hc' : 0 < c' := lt_of_lt_of_le hmr1 h1
      have := emptyCells_nonneg n hc'
      unfold emptyCells at this
      linarith
    · intro c' _ h2 _
      exact h2
  · -- imperfect fit: scan the candidate column counts
    rw [if_neg hdvd]
    have hbe0 : 0 < emptyCells n m := by
      rw [emptyCells_eq n hm, if_neg hdvd]
      have := Int.emod_lt_of_pos n hm
      omega
    by_cases hbig : m < pyCeilDiv n m
    · -- no candidates: the loop body never runs
      rw [pyRangeDown_nil (by omega)]
      refine ⟨pyCeilDiv n m, m, rfl, le_pyCeilDiv_mul n hm, le_refl m, ?_, ?_, ?_⟩
      · intro c' h1 h2; omega
      · intro c' h1 h2; omega
      · intro h; exact absurd h hdvd
    · push_neg at hbig
      rw [pyRangeDown_cons (by omega), gridScan_cons n m _ _ _ hm,
        if_neg (ne_of_gt hbe0), if_pos (emptyCells_lt n hm)]
      obtain ⟨c, hres, hc0, hcle, _, hcbest, hcall, hctie, hcties⟩ :=
        gridScan_spec n (pyRangeDown (m - 1) (pyCeilDiv n m - 1)) m
          (emptyCells n m) hm rfl hbe0
          (by
            intro c hc
            have := mem_pyRangeDown.mp hc
            omega)
          (pairwise_pyRangeDown _ _)
      refine ⟨pyCeilDiv n c, c, hres, le_pyCeilDiv_mul n hc0, hcle,
        ?_, ?_, fun h => absurd h hdvd⟩
      · intro c' h1 h2
        have hec : pyCeilDiv n c * c - n = emptyCells n c := rfl
        rw [hec]
        by_cases hcm : c' = m
        · rw [hcm]; exact hcbest
        · exact hcall c' (mem_pyRangeDown.mpr (by omega))
      · intro c' h1 h2 htie
        have hec : pyCeilDiv n c * c - n = emptyCells n c := rfl
        rw [hec] at htie
        by_cases hcm : c' = m
        · have : c = m := hctie (by rw [htie, hcm]; rfl)
          omega
        · exact hcties c' (mem_pyRangeDown.mpr (by omega)) htie

theorem insertBy_perm {α : Type} (le : α → α → Bool) (a : α) :
    ∀ l : List α, (insertBy le a l).Perm (a :: l) := by
  intro l
  induction l with
  | nil => exact List.Perm.refl _
  | cons b l ih =>
    show (if le a b then a :: b :: l else b :: insertBy le a l).Perm (a :: b :: l)
    by_cases h : le a b
    · rw [if_pos h]
    · rw [if_neg h]
      exact (ih.cons b).trans (List.Perm.swap a b l)

theorem sortBy_perm {α : Type} (le : α → α → Bool) :
    ∀ l : List α, (sortBy le l).Perm l := by
  intro l
  induction l with
  | nil => exact List.Perm.refl _
  | cons a l ih =>
    exact (insertBy_perm le a (sortBy le l)).trans (ih.cons a)

theorem insertBy_pairwise {α : Type} (le : α → α → Bool)
    (htot : ∀ a b, le a b = true ∨ le b a = true)
    (htrans : ∀ a b c, le a b = true → le b c = true → le a c = true) (a : α) :
    ∀ l, l.Pairwise (fun x y => le x y = true) →
      (insertBy le a l).Pairwise (fun x y => le x y = true) := by
  intro l
  induction l with
  | nil =>
    intro _
    exact List.pairwise_singleton _ a
  | cons b l ih =>
    intro hp
    obtain ⟨hb, hl⟩ := List.pairwise_cons.mp hp
    show (if le a b then a :: b :: l else b :: insertBy le a l).Pairwise _
    by_cases h : le a b
    · rw [if_pos h]
      refine List.pairwise_cons.mpr ⟨?_, hp⟩
      intro x hx
      rcases List.mem_cons.mp hx with rfl | hx
      · exact h
      · exact htrans a b x h (hb x hx)
    · rw [if_neg h]
      refine List.pairwise_cons.mpr ⟨?_, ih hl⟩
      intro x hx
      rcases List.mem_cons.mp ((insertBy_perm le a l).mem_iff.mp hx) with rfl | hx
      · rcases htot x b with h1 | h1
        · exact absurd h1 h
        · exact h1
      · exact hb x hx

theorem sortBy_pairwise {α : Type} (le : α → α → Bool)
    (htot : ∀ a b, le a b = true ∨ le b a = true)
    (htrans : ∀ a b c, le a b = true → le b c = true → le a c = true) :
    ∀ l : List α, (sortBy le l).Pairwise (fun x y => le x y = true) := by
  intro l
  induction l with
  | nil => exact List.Pairwise.nil
  | cons a l ih => exact insertBy_pairwise le htot htrans a _ ih

/-- C1: for every `n_plots > 0` and `max_cols > 0`, `find_pretty_grid`
returns a pair `(r, c)` with `r * c ≥ n_plots` and `c ≤ max_cols`, where
`r * c - n_plots` is minimal over the candidate column counts
`c' ∈ [⌈n_plots / max_cols⌉ .. max_cols]` (each candidate giving the grid
`(⌈n_plots / c'⌉, c')`), with ties broken toward the larger column count;
when `max_cols` divides `n_plots` it returns exactly
`(n_plots / max_cols, max_cols)`; and the three documented examples
`(16,5) ↦ (4,4)`, `(11,5) ↦ (3,4)`, `(10,5) ↦ (2,5)` hold. -/
theorem find_pretty_grid_returns_best_grid (n m : Int) (hn : 0 < n) (hm : 0 < m) :
    (∃ r c, find_pretty_grid n m = some (r, c) ∧
      n ≤ r * c ∧ c ≤ m ∧
      (∀ c', pyCeilDiv n m ≤ c' → c' ≤ m →
        r * c - n ≤ pyCeilDiv n c' * c' - n) ∧
      (∀ c', pyCeilDiv n m ≤ c' → c' ≤ m →
        r * c - n = pyCeilDiv n c' * c' - n → c' ≤ c) ∧
      (n % m = 0 → find_pretty_grid n m = some (n / m, m))) ∧
    find_pretty_grid 16 5 = some (4, 4) ∧
    find_pretty_grid 11 5 = some (3, 4) ∧
    find_pretty_grid 10 5 = some (2, 5) := by
  refine ⟨?_, by decide, by decide, by decide⟩
  obtain ⟨r, c, hres, h1, h2, h3, h4, h5⟩ := find_pretty_grid_correct n m hn hm
  refine ⟨r, c, hres, h1, h2, h3, h4, ?_⟩
  intro hdvd
  obtain ⟨hr, hc⟩ := h5 hdvd
  rw [hres, hr, hc]

theorem find_pretty_grid_returns_best_grid_witness :
    ∃ r c, find_pretty_grid 11 5 = some (r, c) ∧ 11 ≤ r * c ∧ c ≤ 5 := by
  obtain ⟨⟨r, c, hres, h1, h2, _⟩, _⟩ :=
    find_pretty_grid_returns_best_grid 11 5 (by decide) (by decide)
  exact ⟨r, c, hres, h1, h2⟩

/-- C7 counterexample: the degenerate input `n_plots = 0 ≤ 0` does not
raise an input-validation error; `find_pretty_grid(0, 5)` returns the
grid `(0, 5)` normally. -/
theorem find_pretty_grid_no_input_validation :
    find_pretty_grid 0 5 = some (0, 5) := by decide

/-- C7 amended: `find_pretty_grid` performs no input validation, and its
only failure mode is the `ZeroDivisionError` raised by `n_plots % max_cols`
when `max_cols = 0`; every other input, degenerate or not, returns a
value. -/
theorem find_pretty_grid_fails_iff_max_cols_zero (n m : Int) :
    find_pretty_grid n m = none ↔ m = 0 := by
  constructor
  · intro h
    by_contra hm
    have hsome := find_pretty_grid_isSome n m hm
    rw [h] at hsome
    exact Bool.noConfusion hsome
  · intro h
    rw [h]
    rfl

/-- C2: for every numeric series whose 1st percentile is `low` and whose
99th percentile is `high` with `low < high` (which the `assert` of the
source enforces whenever the function returns), `_inlier_range` returns
exactly `(low - (high - low)/2, high + (high - low)/2)`, so that
`returned_low < low ≤ high < returned_high` and
`returned_high - returned_low = 2 * (high - low)`. -/
theorem inlier_range_widens_percentile_band (s : List (Option ℚ)) (low high : ℚ)
    (hlow : nanquantile s (1/100) = some low)
    (hhigh : nanquantile s (99/100) = some high)
    (hlt : low < high) :
    _inlier_range s = some (low - (high - low) / 2, high + (high - low) / 2) ∧
    low - (high - low) / 2 < low ∧ low ≤ high ∧ high < high + (high - low) / 2 ∧
    (high + (high - low) / 2) - (low - (high - low) / 2) = 2 * (high - low) := by
  refine ⟨?_, by linarith, le_of_lt hlt, by linarith, by ring⟩
  unfold _inlier_range
  rw [hlow, hhigh]
  simp only [if_pos hlt]

theorem inlier_range_widens_percentile_band_witness :
    _inlier_range [some 0, some 100] = some (1 - (99 - 1) / 2, 99 + (99 - 1) / 2) :=
  (inlier_range_widens_percentile_band [some 0, some 100] 1 99
    (by norm_num [nanquantile, quantileSorted, sortBy, insertBy, List.filterMap])
    (by norm_num [nanquantile, quantileSorted, sortBy, insertBy, List.filterMap])
    (by norm_num)).1

theorem foldl_and_truthy (rest : List (Option Bool)) :
    ∀ init : Bool,
      (rest.foldl (fun acc v => acc && truthy v) init = true ↔
        (init = true ∧ ∀ v ∈ rest, truthy v = true)) := by
  induction rest with
  | nil => intro init; simp
  | cons v vs ih =>
    intro init
    simp only [List.foldl_cons, List.mem_cons]
    rw [ih (init && truthy v)]
    constructor
    · rintro ⟨h1, h2⟩
      obtain ⟨ha, hv⟩ := Bool.and_eq_true_iff.mp h1
      refine ⟨ha, ?_⟩
      intro x hx
      rcases hx with rfl | hx
      · exact hv
      · exact h2 x hx
    · rintro ⟨ha, hall⟩
      exact ⟨Bool.and_eq_true_iff.mpr ⟨ha, hall v (Or.inl rfl)⟩,
        fun x hx => hall x (Or.inr hx)⟩

theorem pyReduceAnd_getD_true (ms : List (Option Bool)) :
    ((pyReduceAnd ms).getD true = true ↔ ∀ x ∈ ms, truthy x = true) := by
  match ms with
  | [] => simp [pyReduceAnd]
  | [x] =>
    cases x with
    | none => simp [pyReduceAnd, truthy]
    | some b => simp [pyReduceAnd, truthy]
  | x :: y :: rest =>
    simp only [pyReduceAnd, Option.getD_some]
    rw [foldl_and_truthy rest (truthy x && truthy y), Bool.and_eq_true]
    constructor
    · rintro ⟨⟨hx, hy⟩, hr⟩ z hz
      simp only [List.mem_cons] at hz
      rcases hz with rfl | rfl | hz
      · exact hx
      · exact hy
      · exact hr z hz
    · intro h
      exact ⟨⟨h x (by simp), h y (by simp)⟩, fun z hz => h z (by simp [hz])⟩

theorem find_outliers_entry (col : List (Option ℚ)) (i : ℕ) :
    (truthy (((_find_outliers_series col)[i]?).getD none) = true ↔
      colInlierSpec col i) := by
  rcases h1 : nanquantile col (1/100) with _ | low
  · simp only [_find_outliers_series, h1]
    rw [List.getElem?_map]
    cases hc : col[i]? with
    | none => simp [truthy, colInlierSpec, hc]
    | some e =>
      cases e with
      | none => simp [truthy, colInlierSpec, hc]
      | some v =>
        simp only [Option.map_some', Option.getD_some]
        simp only [truthy, colInlierSpec, hc, Option.getD_some]
        constructor
        · intro h; exact absurd h (by simp)
        · rintro ⟨low, high, hq, _⟩
          rw [h1] at hq
          exact Option.noConfusion hq
  · rcases h2 : nanquantile col (99/100) with _ | high
    · simp only [_find_outliers_series, h1, h2]
      rw [List.getElem?_map]
      cases hc : col[i]? with
      | none => simp [truthy, colInlierSpec, hc]
      | some e =>
        cases e with
        | none => simp [truthy, colInlierSpec, hc]
        | some v =>
          simp only [Option.map_some', Option.getD_some]
          simp only [truthy, colInlierSpec, hc, Option.getD_some]
          constructor
          · intro h; exact absurd h (by simp)
          · rintro ⟨low, high, _, hq, _⟩
            rw [h2] at hq
            exact Option.noConfusion hq
    · simp only [_find_outliers_series, h1, h2]
      rw [List.getElem?_map]
      cases hc : col[i]? with
      | none => simp [truthy, colInlierSpec, hc]
      | some e =>
        cases e with
        | none => simp [truthy, colInlierSpec, hc]
        | some v =>
          simp only [Option.map_some', Option.getD_some]
          simp only [truthy, colInlierSpec, hc, Option.getD_some,
            decide_eq_true_eq]
          constructor
          · intro hcond
            exact ⟨low, high, h1, h2, hcond.1, hcond.2⟩
          · rintro ⟨low2, high2, hq1, hq2, hc1, hc2⟩
            rw [h1] at hq1
            rw [h2] at hq2
            obtain rfl : low = low2 := Option.some.inj hq1
            obtain rfl : high = high2 := Option.some.inj hq2
            exact ⟨hc1, hc2⟩

theorem clean_outliers_row_keep (data : List (List (Option ℚ))) (i : ℕ) :
    (cleanOutliersKeep data i = true ↔ ∀ col ∈ data, colInlierSpec col i) := by
  unfold cleanOutliersKeep cleanOutliersRow
  rw [List.map_map, pyReduceAnd_getD_true]
  constructor
  · intro h col hcol
    refine (find_outliers_entry col i).mp (h _ ?_)
    exact List.mem_map.mpr ⟨col, hcol, rfl⟩
  · intro h x hx
    obtain ⟨col, hcol, rfl⟩ := List.mem_map.mp hx
    exact (find_outliers_entry col i).mpr (h col hcol)

/-- C5: a value tested by `_find_inliers` is classified as an inlier if
and only if it lies in the widened percentile interval
`[returned_low, returned_high]` or is missing; and `_clean_outliers`
keeps a row of the full table if and only if every column entry of that
row is an inlier in this sense (the row-wise logical AND treats missing
entries as inliers, so an all-missing row is kept). -/
theorem outlier_inlier_rule :
    (∀ (series : List (Option ℚ)) (low high : ℚ),
      _inlier_range series = some (low, high) →
      ∀ mask, _find_inliers series = some mask →
        ∀ i : ℕ,
          ((mask[i]?).getD true = true ↔
            inlierSpec low high ((series[i]?).getD none))) ∧
    (∀ (data : List (List (Option ℚ))) (i : ℕ),
      (cleanOutliersKeep data i = true ↔ ∀ col ∈ data, colInlierSpec col i)) := by
  constructor
  · intro series low high hr mask hm i
    unfold _find_inliers at hm
    rw [hr] at hm
    obtain rfl := (Option.some.inj hm).symm
    rw [List.getElem?_map]
    cases hc : series[i]? with
    | none => simp [inlierSpec]
    | some e =>
      cases e with
      | none => simp [inlierSpec]
      | some v => simp [inlierSpec]
  · exact clean_outliers_row_keep

theorem outlier_inlier_rule_witness :
    ((([true, true] : List Bool)[0]?).getD true = true ↔
      inlierSpec (-24/5) (74/5)
        ((([some (0:ℚ), some 10] : List (Option ℚ))[0]?).getD none)) :=
  outlier_inlier_rule.1 [some 0, some 10] (-24/5) (74/5)
    (by norm_num [_inlier_range, nanquantile, quantileSorted, sortBy, insertBy,
      List.filterMap])
    [true, true]
    (by norm_num [_find_inliers, _inlier_range, nanquantile, quantileSorted,
      sortBy, insertBy, List.filterMap])
    0

theorem value_counts_perm (xs : List String) :
    (value_counts xs).Perm (xs.dedup.map (fun v => (v, xs.count v))) :=
  sortBy_perm _ _

theorem value_counts_mem {xs : List String} {p : String × ℕ} :
    p ∈ value_counts xs ↔ p.1 ∈ xs.dedup ∧ p.2 = xs.count p.1 := by
  rw [(value_counts_perm xs).mem_iff, List.mem_map]
  constructor
  · rintro ⟨v, hv, rfl⟩
    exact ⟨hv, rfl⟩
  · obtain ⟨a, b⟩ := p
    rintro ⟨h1, h2⟩
    simp only at h1 h2
    exact ⟨a, h1, by rw [h2]⟩

theorem value_counts_names_perm (xs : List String) :
    (((value_counts xs).map Prod.fst)).Perm xs.dedup := by
  have h := (value_counts_perm xs).map Prod.fst
  rw [List.map_map] at h
  rw [show (Prod.fst ∘ fun v : String => (v, xs.count v)) = fun v => v from rfl,
    List.map_id'] at h
  exact h

theorem value_counts_names_nodup (xs : List String) :
    ((value_counts xs).map Prod.fst).Nodup :=
  ((value_counts_names_perm xs).nodup_iff).mpr xs.nodup_dedup

theorem value_counts_sorted (xs : List String) :
    (value_counts xs).Pairwise (fun p q => q.2 ≤ p.2) := by
  have h := sortBy_pairwise (fun p q : String × ℕ => decide (q.2 ≤ p.2))
    (by
      intro a b
      rcases le_total b.2 a.2 with h | h
      · exact Or.inl (decide_eq_true h)
      · exact Or.inr (decide_eq_true h))
    (by
      intro a b c h1 h2
      exact decide_eq_true (le_trans (of_decide_eq_true h2) (of_decide_eq_true h1)))
    (xs.dedup.map fun v => (v, xs.count v))
  exact h.imp (fun h => of_decide_eq_true h)

theorem count_drop_le_count_take (xs : List String) (K : ℕ) :
    ∀ p ∈ (value_counts xs).take K, ∀ q ∈ (value_counts xs).drop K, q.2 ≤ p.2 := by
  have hs := value_counts_sorted xs
  rw [← List.take_append_drop K (value_counts xs)] at hs
  exact (List.pairwise_append.mp hs).2.2

theorem kept_iff_not_small (xs : List String) (K : ℕ) {v : String}
    (hv : v ∈ xs.dedup) :
    (v ∈ ((value_counts xs).take K).map Prod.fst ↔
      v ∉ ((value_counts xs).drop K).map Prod.fst) := by
  have hmemnames : v ∈ (value_counts xs).map Prod.fst :=
    (value_counts_names_perm xs).mem_iff.mpr hv
  have hsplit : (value_counts xs).map Prod.fst =
      ((value_counts xs).take K).map Prod.fst ++
        ((value_counts xs).drop K).map Prod.fst := by
    rw [← List.map_append, List.take_append_drop]
  have hnodup := value_counts_names_nodup xs
  rw [hsplit] at hmemnames hnodup
  obtain ⟨-, -, hdisj⟩ := List.nodup_append.mp hnodup
  constructor
  · intro hk hd
    exact hdisj hk hd
  · intro hnotd
    rcases List.mem_append.mp hmemnames with h | h
    · exact h
    · exact absurd h hnotd

/-- C3 counterexample: on a series whose most frequent category is the
sentinel `dabl_other` itself, `_prune_categories` does not return a pruned
series at all: `add_categories(['dabl_other'])` raises a `ValueError`
because `dabl_other` is still a live category, so the claimed output does
not exist. -/
theorem prune_categories_counterexample :
    _prune_categories [some "dabl_other"] 1 = none := by decide

/-- C3 amended: whenever `_prune_categories` returns (that is, the
sentinel `dabl_other` is not among the kept categories; otherwise
`add_categories` raises a `ValueError`), the `K` most frequent categories
are kept unchanged, every original category outside the top `K` and every
missing entry is mapped to `dabl_other`, every kept category is at least
as frequent as every pruned one, and the output has at most `K + 1`
distinct values. -/
theorem prune_categories_keeps_top_K (s : List (Option String)) (K : ℕ)
    (out : List String) (hout : _prune_categories s K = some out) :
    (∀ (i : ℕ) (v : String), s[i]? = some (some v) →
      v ∈ ((value_counts (s.filterMap id)).take K).map Prod.fst →
      out[i]? = some v) ∧
    (∀ (i : ℕ) (v : String), s[i]? = some (some v) →
      v ∉ ((value_counts (s.filterMap id)).take K).map Prod.fst →
      out[i]? = some "dabl_other") ∧
    (∀ i : ℕ, s[i]? = some none → out[i]? = some "dabl_other") ∧
    (∀ a ∈ ((value_counts (s.filterMap id)).take K).map Prod.fst,
      ∀ b ∈ s.filterMap id,
        b ∉ ((value_counts (s.filterMap id)).take K).map Prod.fst →
        (s.filterMap id).count b ≤ (s.filterMap id).count a) ∧
    out.toFinset.card ≤ K + 1 := by
  unfold _prune_categories at hout
  split at hout
  · exact Option.noConfusion hout
  · obtain rfl := (Option.some.inj hout).symm
    refine ⟨?_, ?_, ?_, ?_, ?_⟩
    · intro i v hsi hkept
      rw [List.getElem?_map, hsi, Option.map_some']
      have hv : v ∈ s.filterMap id :=
        List.mem_filterMap.mpr ⟨some v, List.getElem?_mem hsi, rfl⟩
      have hnotsmall :=
        (kept_iff_not_small (s.filterMap id) K (List.mem_dedup.mpr hv)).mp hkept
      show some (if v ∈ ((value_counts (s.filterMap id)).drop K).map Prod.fst
        then "dabl_other" else v) = some v
      rw [if_neg hnotsmall]
    · intro i v hsi hnot
      rw [List.getElem?_map, hsi, Option.map_some']
      have hv : v ∈ s.filterMap id :=
        List.mem_filterMap.mpr ⟨some v, List.getElem?_mem hsi, rfl⟩
      by_cases hsm : v ∈ ((value_counts (s.filterMap id)).drop K).map Prod.fst
      · show some (if v ∈ ((value_counts (s.filterMap id)).drop K).map Prod.fst
          then "dabl_other" else v) = some "dabl_other"
        rw [if_pos hsm]
      · exact absurd
          ((kept_iff_not_small (s.filterMap id) K (List.mem_dedup.mpr hv)).mpr hsm)
          hnot
    · intro i hsi
      rw [List.getElem?_map, hsi, Option.map_some']
    · intro a ha b hb hbnot
      obtain ⟨p, hp, rfl⟩ := List.mem_map.mp ha
      have hpc : p.2 = (s.filterMap id).count p.1 :=
        (value_counts_mem.mp (List.mem_of_mem_take hp)).2
      have hbsmall : b ∈ ((value_counts (s.filterMap id)).drop K).map Prod.fst := by
        by_cases h : b ∈ ((value_counts (s.filterMap id)).drop K).map Prod.fst
        · exact h
        · exact absurd
            ((kept_iff_not_small (s.filterMap id) K (List.mem_dedup.mpr hb)).mpr h)
            hbnot
      obtain ⟨q, hq, rfl⟩ := List.mem_map.mp hbsmall
      have hqc : q.2 = (s.filterMap id).count q.1 :=
        (value_counts_mem.mp (List.mem_of_mem_drop hq)).2
      calc (s.filterMap id).count q.1 = q.2 := hqc.symm
        _ ≤ p.2 := count_drop_le_count_take (s.filterMap id) K p hp q hq
        _ = (s.filterMap id).count p.1 := hpc
    · have hsub : (s.map (fun e =>
          match e with
          | some v =>
            if v ∈ ((value_counts (s.filterMap id)).drop K).map Prod.fst
            then "dabl_other" else v
          | none => "dabl_other")).toFinset ⊆
          insert "dabl_other"
            (((value_counts (s.filterMap id)).take K).map Prod.fst).toFinset := by
        intro x hx
        rw [List.mem_toFinset] at hx
        obtain ⟨e, he, rfl⟩ := List.mem_map.mp hx
        cases e with
        | none => exact Finset.mem_insert_self _ _
        | some v =>
          by_cases hsm : v ∈ ((value_counts (s.filterMap id)).drop K).map Prod.fst
          · show (if v ∈ ((value_counts (s.filterMap id)).drop K).map Prod.fst
              then "dabl_other" else v) ∈ _
            rw [if_pos hsm]
            exact Finset.mem_insert_self _ _
          · have hv : v ∈ s.filterMap id := List.mem_filterMap.mpr ⟨some v, he, rfl⟩
            have hkept :=
              (kept_iff_not_small (s.filterMap id) K (List.mem_dedup.mpr hv)).mpr hsm
            show (if v ∈ ((value_counts (s.filterMap id)).drop K).map Prod.fst
              then "dabl_other" else v) ∈ _
            rw [if_neg hsm]
            exact Finset.mem_insert.mpr (Or.inr (List.mem_toFinset.mpr hkept))
      calc (s.map _).toFinset.card
          ≤ (insert "dabl_other"
              (((value_counts (s.filterMap id)).take K).map Prod.fst).toFinset).card :=
            Finset.card_le_card hsub
        _ ≤ (((value_counts (s.filterMap id)).take K).map Prod.fst).toFinset.card + 1 :=
            Finset.card_insert_le _ _
        _ ≤ (((value_counts (s.filterMap id)).take K).map Prod.fst).length + 1 :=
            Nat.add_le_add_right (List.toFinset_card_le _) 1
        _ ≤ K + 1 := by
            rw [List.length_map, List.length_take]
            omega

theorem prune_categories_keeps_top_K_witness :
    (["a", "a", "dabl_other", "dabl_other"] : List String).toFinset.card ≤ 2 :=
  (prune_categories_keeps_top_K [some "a", some "a", some "b", none] 1
    ["a", "a", "dabl_other", "dabl_other"] (by decide)).2.2.2.2

theorem setCol_map_getCol_self :
    ∀ (X : List (String × List (Option String))) (c : String),
      c ∈ X.map Prod.fst → (X.map Prod.fst).Nodup →
      X.map (fun p => if p.1 = c then (p.1, getCol X c) else p) = X := by
  intro X
  induction X with
  | nil =>
    intro c h _
    exact absurd h (by simp)
  | cons p X ih =>
    intro c hc hnodup
    have hnodup2 : (p.1 ∉ X.map Prod.fst) ∧ (X.map Prod.fst).Nodup :=
      List.nodup_cons.mp (by simpa using hnodup)
    simp only [List.map_cons]
    by_cases hp : p.1 = c
    · have hget : getCol (p :: X) c = p.2 := by
        unfold getCol
        simp [List.find?_cons, hp]
      rw [hget, if_pos hp]
      congr 1
      have hid : ∀ q ∈ X, (if q.1 = c then (q.1, p.2) else q) = q := by
        intro q hq
        have hqc : q.1 ≠ c := by
          intro hqc
          exact hnodup2.1 (by
            rw [hp, ← hqc]
            exact List.mem_map.mpr ⟨q, hq, rfl⟩)
        rw [if_neg hqc]
      exact (List.map_congr_left hid).trans (List.map_id' X)
    · have hget : getCol (p :: X) c = getCol X c := by
        unfold getCol
        simp [List.find?_cons, hp]
      rw [hget, if_neg hp]
      congr 1
      apply ih c ?_ hnodup2.2
      rw [List.map_cons] at hc
      rcases List.mem_cons.mp hc with h | h
      · exact absurd h.symm hp
      · exact h

theorem setCol_getCol_self (X : List (String × List (Option String))) (c : String)
    (hc : c ∈ X.map Prod.fst) (hnodup : (X.map Prod.fst).Nodup) :
    setCol X c (getCol X c) = X := by
  unfold setCol
  rw [if_pos hc]
  exact setCol_map_getCol_self X c hc hnodup

/-- C10 counterexample: when the over-threshold column already contains
the sentinel `dabl_other` among its kept categories, the pruning raises a
`ValueError` and `_prune_category_make_X` returns no table at all, so the
claimed two-column result does not exist. -/
theorem prune_category_make_X_counterexample :
    _prune_category_make_X
      [("c", [some "dabl_other", some "dabl_other", some "b"]),
       ("t", [some "x", some "y", some "x"])] "c" "t" 1 = none := by decide

/-- C10 amended: for a table with unique column labels, a column `col`
distinct from `target_col`, when the distinct-value count of `col` exceeds
`max_categories` and the pruning succeeds, the result contains exactly the
target column and the pruned column (every other column is dropped); when
the count does not exceed `max_categories` the result is all of `X`
unchanged (`astype('category')` keeps the values).  The embedding is a
pure function, so the callers table is never mutated. -/
theorem prune_category_make_X_frame (X : List (String × List (Option String)))
    (col target_col : String) (maxc : ℕ)
    (hne : col ≠ target_col)
    (hcol : col ∈ X.map Prod.fst)
    (hnodup : (X.map Prod.fst).Nodup) :
    (∀ pruned, _prune_categories (getCol X col) (min 10 maxc) = some pruned →
      maxc < nunique (getCol X col) →
      _prune_category_make_X X col target_col maxc =
        some [(target_col, getCol X target_col), (col, pruned.map some)]) ∧
    (nunique (getCol X col) ≤ maxc →
      _prune_category_make_X X col target_col maxc = some X) := by
  constructor
  · intro pruned hp hlt
    unfold _prune_category_make_X
    rw [if_pos hlt, hp]
    have hnotmem : col ∉ ([(target_col, getCol X target_col)]).map Prod.fst := by
      simp [hne]
    show some (setCol [(target_col, getCol X target_col)] col (pruned.map some)) =
      some [(target_col, getCol X target_col), (col, pruned.map some)]
    unfold setCol
    rw [if_neg hnotmem]
    rfl
  · intro hle
    unfold _prune_category_make_X
    rw [if_neg (by omega)]
    rw [setCol_getCol_self X col hcol hnodup]

theorem prune_category_make_X_frame_witness :
    _prune_category_make_X [("t", [some "x", some "y"]), ("c", [some "u", some "v"])]
      "c" "t" 1 =
      some [("t", [some "x", some "y"]), ("c", [some "u", some "dabl_other"])] :=
  (prune_category_make_X_frame
      [("t", [some "x", some "y"]), ("c", [some "u", some "v"])] "c" "t" 1
      (by decide) (by decide) (by decide)).1
    ["u", "dabl_other"] (by decide) (by decide)

theorem fillCol_num_some (m : ℚ) (vs : List (Option ℚ)) :
    fillCol (some m) (PCol.num vs) =
      PCol.num (vs.map (fun e => some (e.getD (m + 1)))) := by
  simp only [fillCol]
  congr 1
  apply List.map_congr_left
  intro e _
  cases e <;> rfl

/-- C4 counterexample: a table whose only column is numeric and entirely
missing has no table-wide numeric maximum (`NaN`); the numeric fill value
`NaN + 1` is `NaN`, so the missing entry survives and the output does not
have zero remaining missing entries. -/
theorem fill_missing_counterexample :
    tableHasMissing (_fill_missing_categorical [("a", PCol.num [none])]) = true := by
  decide

/-- C4 amended: whenever the table-wide numeric maximum `m` exists (at
least one numeric value is present), `_fill_missing_categorical` returns a
table with zero remaining missing entries, where missing entries of
object columns are filled with the sentinel string `dabl_missing` and
missing entries of numeric columns with `m + 1`.  The embedding is a pure
function on a copy, so the callers table is left unmodified. -/
theorem fill_missing_fills_all (X : List (String × PCol)) (m : ℚ)
    (hm : tableMax X = some m) :
    tableHasMissing (_fill_missing_categorical X) = false ∧
    (∀ name vs, (name, PCol.obj vs) ∈ X →
      (name, PCol.obj (vs.map (fun e => some (e.getD "dabl_missing")))) ∈
        _fill_missing_categorical X) ∧
    (∀ name vs, (name, PCol.num vs) ∈ X →
      (name, PCol.num (vs.map (fun e => some (e.getD (m + 1))))) ∈
        _fill_missing_categorical X) := by
  refine ⟨?_, ?_, ?_⟩
  · unfold tableHasMissing _fill_missing_categorical
    rw [List.any_eq_false]
    intro p hp
    obtain ⟨q, hq, rfl⟩ := List.mem_map.mp hp
    rw [hm]
    cases q.2 with
    | obj vs =>
      rw [Bool.not_eq_true]
      show ((vs.map (fun e => some (e.getD "dabl_missing"))).any
        (fun e => e.isNone)) = false
      rw [List.any_eq_false]
      intro e he
      obtain ⟨e0, he0, rfl⟩ := List.mem_map.mp he
      cases e0 <;> simp
    | num vs =>
      rw [Bool.not_eq_true]
      show colHasMissing (fillCol (some m) (PCol.num vs)) = false
      rw [fillCol_num_some]
      show ((vs.map (fun e => some (e.getD (m + 1)))).any (fun e => e.isNone)) = false
      rw [List.any_eq_false]
      intro e he
      obtain ⟨e0, he0, rfl⟩ := List.mem_map.mp he
      simp
  · intro name vs hmem
    unfold _fill_missing_categorical
    refine List.mem_map.mpr ⟨(name, PCol.obj vs), hmem, ?_⟩
    rfl
  · intro name vs hmem
    unfold _fill_missing_categorical
    refine List.mem_map.mpr ⟨(name, PCol.num vs), hmem, ?_⟩
    rw [hm, fillCol_num_some]

theorem fill_missing_fills_all_witness :
    tableHasMissing (_fill_missing_categorical
      [("s", PCol.obj [some "x", none]), ("n", PCol.num [some 2, none])]) = false :=
  (fill_missing_fills_all
    [("s", PCol.obj [some "x", none]), ("n", PCol.num [some 2, none])] 2
    (by norm_num [tableMax, colMax, List.filterMap])).1

theorem linspace_length (a b : ℚ) (m : ℕ) : (linspace a b m).length = m := by
  simp [linspace]

theorem histogram_bin_edges_num_length (d : List ℚ) (n : ℕ) :
    (histogram_bin_edges d (Bins.num n)).length = n + 1 := by
  rw [show histogram_bin_edges d (Bins.num n) =
      (if (d.min?).getD 0 = (d.max?).getD 1 then
        linspace ((d.min?).getD 0 - 1/2) ((d.max?).getD 1 + 1/2) (n + 1)
      else linspace ((d.min?).getD 0) ((d.max?).getD 1) (n + 1)) from rfl]
  split
  · rw [linspace_length]
  · rw [linspace_length]

/-- C6 counterexample: requesting 9 bins on the data `[0, 1]` yields 10
bin edges, which is not fewer than 10, so the guard does not fire and the
histogram is drawn with 10 - 1 = 9 bins, fewer than the claimed minimum
of 10 bins. -/
theorem class_hists_nine_bins :
    (class_hists_bin_edges [some 0, some 1] (Bins.num 9)).length - 1 < 10 := by
  have h : (class_hists_bin_edges [some 0, some 1] (Bins.num 9)).length = 10 := by
    unfold class_hists_bin_edges
    rw [if_neg (by rw [histogram_bin_edges_num_length]; omega)]
    rw [histogram_bin_edges_num_length]
  omega

/-- C6 amended: `class_hists` always draws with at least 10 bin edges,
that is, at least 9 bins: when the requested binning (a bin count or an
explicit edge array) yields fewer than 10 edges it recomputes the edges
with exactly 10 bins (11 edges). -/
theorem class_hists_at_least_10_edges (data : List (Option ℚ)) (bins : Bins) :
    10 ≤ (class_hists_bin_edges data bins).length ∧
    9 ≤ (class_hists_bin_edges data bins).length - 1 := by
  have h10 : 10 ≤ (class_hists_bin_edges data bins).length := by
    unfold class_hists_bin_edges
    split
    · rw [histogram_bin_edges_num_length]
      omega
    · next h => omega
  exact ⟨h10, by omega⟩

/-- C8 counterexample: a two-dimensional column vector of shape `(3, 1)`
with 3 feature names is accepted without raising, refuting that every
non-one-dimensional coefficient input is rejected (`squeeze` removes the
singleton axis before the dimensionality check). -/
theorem plot_coefficients_accepts_column_vector :
    plot_coefficients_checks [3, 1] 3 = Except.ok () := rfl

/-- C8 amended: the validation prologue of `plot_coefficients` accepts
its input if and only if the squeezed coefficient array has at most one
dimension and its total length equals the number of feature names; in
particular a length mismatch always raises, but a column or row vector
with singleton axes is accepted despite not being one-dimensional. -/
theorem plot_coefficients_validation (shape : List ℕ) (nFeatures : ℕ) :
    (plot_coefficients_checks shape nFeatures = Except.ok () ↔
      (squeezeShape shape).length ≤ 1 ∧ shapeSize shape = nFeatures) := by
  unfold plot_coefficients_checks
  by_cases h1 : 1 < (squeezeShape shape).length
  · rw [if_pos h1]
    constructor
    · intro h
      exact Except.noConfusion h
    · rintro ⟨ha, -⟩
      omega
  · rw [if_neg h1]
    by_cases h2 : shapeSize shape ≠ nFeatures
    · rw [if_pos h2]
      constructor
      · intro h
        exact Except.noConfusion h
      · rintro ⟨-, hb⟩
        exact absurd hb h2
    · rw [if_neg h2]
      constructor
      · intro _
        exact ⟨by omega, not_ne_iff.mp h2⟩
      · intro _
        rfl

/-- C9: for a target column present in the table, `_check_X_target_col`
raises when the target column has fewer than two distinct values, and
raises the respective type-mismatch error when the detected kind of the
target column disagrees with the requested task (the distinct-value check
runs first, so the type-mismatch errors are reached only for targets with
at least two distinct values). -/
theorem check_X_target_col_raises (X : List (String × List (Option String)))
    (target_col : String) (types : String → Bool × Bool) (task : Task)
    (hmem : target_col ∈ X.map Prod.fst) :
    (nunique (getCol X target_col) < 2 →
      _check_X_target_col X target_col types task =
        Except.error
          "Less than two classes present, need at least two for classification") ∧
    (2 ≤ nunique (getCol X target_col) → task = Task.classification →
      (types target_col).1 = false →
      _check_X_target_col X target_col types task =
        Except.error "need categorical for classification") ∧
    (2 ≤ nunique (getCol X target_col) → task = Task.regression →
      (types target_col).2 = false →
      _check_X_target_col X target_col types task =
        Except.error "need continuous for regression") := by
  unfold _check_X_target_col
  rw [if_neg (not_not_intro hmem)]
  refine ⟨?_, ?_, ?_⟩
  · intro hlt
    rw [if_pos hlt]
  · intro hge htask htypes
    rw [if_neg (by omega), if_pos ⟨htask, htypes⟩]
  · intro hge htask htypes
    rw [if_neg (by omega), if_neg ?_, if_pos ⟨htask, htypes⟩]
    rintro ⟨hc, -⟩
    rw [htask] at hc
    exact Task.noConfusion hc

theorem check_X_target_col_raises_witness :
    _check_X_target_col [("y", [some "a", some "a"])] "y"
      (fun _ => (true, true)) Task.classification =
      Except.error
        "Less than two classes present, need at least two for classification" :=
  (check_X_target_col_raises [("y", [some "a", some "a"])] "y"
    (fun _ => (true, true)) Task.classification (by decide)).1 (by decide)
